import Mathlib

/-!
Verification development for the agentic-SDLC ingestion pipeline.

The definitions below are a shallow embedding of the Python sources:
  * `src/schemas/state.py`   — the typed state objects (enums, FileInfo,
    DependencyInfo, IngestionPolicy, RepoBundle, AgentState),
  * `src/graph.py`           — the conditional edge `should_continue_to_architect`,
  * `src/agents/code_ingestion_node.py` — the ingestion node, with its external
    collaborators (GitHub API, LLM completion) modelled as an explicit
    environment: the node is a pure function of the state and of the outcomes
    of those external calls,
  * `src/services/github_service.py` — `classify_file`, `redact_secrets`,
    `discover_dependencies`, `_parse_dependencies` and the pattern tables.

Machine strings are Lean `String`s, Python `None` is `Option.none`, Python
exceptions are `Except` / explicit outcome constructors.
-/

/-! ## Schemas (src/schemas/state.py) -/

/-- Embeds enum `IngestionStatus` (state.py): pending / in_progress / completed / failed. -/
inductive IngestionStatus where
  | pending
  | in_progress
  | completed
  | failed
deriving DecidableEq, Repr

/-- Embeds enum `RiskSeverity` (state.py). -/
inductive RiskSeverity where
  | critical
  | high
  | medium
  | low
  | info
deriving DecidableEq, Repr

/-- Embeds pydantic model `FileInfo` (state.py): one record per discovered file. -/
structure FileInfo where
  path : String
  language : Option String := none
  size_bytes : Nat := 0
  classification : Option String := none
  checksum : Option String := none
deriving DecidableEq, Repr

/-- Embeds pydantic model `DependencyInfo` (state.py). -/
structure DependencyInfo where
  name : String
  version : Option String := none
  package_manager : String
  is_dev : Bool := false
  vulnerabilities : List String := []
deriving DecidableEq, Repr

/-- Embeds pydantic model `RiskItem` (state.py); `effort`/`evidence_uri` omitted
(no claim mentions them). -/
structure RiskItem where
  id : String
  category : String
  severity : RiskSeverity
  title : String
  description : String
  remediation : Option String := none
deriving DecidableEq, Repr

/-- Embeds pydantic model `IngestionPolicy` (state.py) with its defaults.
Python's `max_file_mb` is a float defaulting to `2.0`; the claims never
exercise the size check, so it is carried as a natural number of megabytes. -/
structure IngestionPolicy where
  max_file_mb : Nat := 2
  exclude_globs : List String :=
    ["**/*.pem", "**/*.key", "**/.env",
     "dist/**", "build/**", "node_modules/**",
     "**/*.jar", "**/*.zip", "**/*.pdf"]
  include_tests : Bool := true
  redact_secrets : Bool := true
deriving DecidableEq, Repr

/-- Embeds pydantic model `RepoBundle` (state.py): the knowledge bundle produced
by the code-ingestion agent. The `timestamp` field (a wall-clock datetime) is
omitted: no claim mentions it and it has no logical content. -/
structure RepoBundle where
  repo_url : String
  ref : String
  languages : List String := []
  frameworks : List String := []
  build_systems : List String := []
  files : List FileInfo := []
  total_files : Nat := 0
  total_size_bytes : Nat := 0
  dependencies : List DependencyInfo := []
  code_files : List String := []
  config_files : List String := []
  doc_files : List String := []
  iac_files : List String := []
  cicd_files : List String := []
  test_files : List String := []
  risks : List RiskItem := []
  files_ingested : Nat := 0
  files_excluded : Nat := 0
  secrets_redacted : Nat := 0
  ingestion_policy : IngestionPolicy := {}
deriving DecidableEq, Repr

/-- Embeds pydantic model `AgentState` (state.py). The LangChain message list
and the report/business-context fields are omitted: they are opaque payloads
that no claim mentions and the ingestion node only appends to them. -/
structure AgentState where
  repo_url : Option String := none
  ref : String := "main"
  ingestion_policy : IngestionPolicy := {}
  ingestion_status : IngestionStatus := IngestionStatus.pending
  repo_bundle : Option RepoBundle := none
  error : Option String := none
  current_agent : Option String := none
  completed : Bool := false
deriving DecidableEq, Repr

/-! ## Conditional edge (src/graph.py, `should_continue_to_architect`)

Python: `if state.ingestion_status == IngestionStatus.COMPLETED and state.repo_bundle:`.
A pydantic `RepoBundle` instance is always truthy (no `__bool__`/`__len__`), so
the truthiness test on the `RepoBundle | None` field is exactly `isSome`. -/

def should_continue_to_architect (state : AgentState) : String :=
  if state.ingestion_status = IngestionStatus.completed ∧ state.repo_bundle.isSome then
    "architect"
  else
    "end"

/-! ## Code ingestion node (src/agents/code_ingestion_node.py)

The node's external collaborators are modelled as an environment:
  * `repo_access` — outcome of `github.get_repository` (the raised exception's
    rendering on failure),
  * `files` — the sequence of `FileInfo` yielded by `github.list_files` (the
    walker swallows its own listing errors and simply ends the stream, so its
    outcome is always a plain list),
  * `deps` — the result of `github.discover_dependencies` (total: it swallows
    every per-candidate failure, see `discover_dependencies` below),
  * `llm` — outcome of the LLM analysis call, already decoded to the analysis
    record: the JSON-extraction step in the source never raises (parse errors
    fall back to an empty analysis), so only the transport failure is distinct.
-/

/-- Analysis record parsed from the LLM response (the `analysis` dict of
code_ingestion_node.py after JSON extraction, with its fallback defaults). -/
structure Analysis where
  languages : List String := []
  frameworks : List String := []
  build_systems : List String := []
  risks : List RiskItem := []
deriving DecidableEq, Repr

/-- Environment of one `code_ingestion_node` run: outcomes of the external calls. -/
structure IngestEnv where
  repo_access : Except String Unit
  files : List FileInfo
  deps : List DependencyInfo
  llm : Except String Analysis

/-- The dict of state updates returned by `code_ingestion_node`. A field set to
`none` models either Python `None` or an absent key (the validation branch omits
`current_agent`; every other branch sets it). Message-list updates are omitted. -/
structure StateUpdate where
  ingestion_status : IngestionStatus
  repo_bundle : Option RepoBundle
  error : Option String
  current_agent : Option String
deriving DecidableEq, Repr

/-- Python truthiness of `state.repo_url` used by `if not state.repo_url:`:
falsy iff `None` or the empty string. -/
def repoUrlMissing (s : AgentState) : Bool :=
  match s.repo_url with
  | none => true
  | some u => u.isEmpty

/-- The classification loop of code_ingestion_node.py (lines 241-257): append
`file_info.path` to a bucket when `file_info.classification` equals the tag. -/
def bucket (files : List FileInfo) (cls : String) : List String :=
  files.filterMap (fun f => if f.classification = some cls then some f.path else none)

/-- Embeds `code_ingestion_node` (code_ingestion_node.py lines 176-410).
Control flow of the source: validate `repo_url` (fail fast, before any external
call); fetch the repository (a failure is wrapped in `GitHubError` and caught by
the outer handler); walk + classify the files; discover dependencies (total);
invoke the LLM (a failure is wrapped in `LLMError` and caught); build the
`RepoBundle` and return the completed update. The local counters
`excluded_count` and `secrets_redacted` are initialized to 0 at lines 233-234
and never written again before being copied into the bundle at lines 354-355. -/
def code_ingestion_node (state : AgentState) (env : IngestEnv) : StateUpdate :=
  if repoUrlMissing state then
    { ingestion_status := IngestionStatus.failed,
      repo_bundle := none,
      error := some "repo_url is required",
      current_agent := none }
  else
    match env.repo_access with
    | Except.error e =>
      { ingestion_status := IngestionStatus.failed,
        repo_bundle := none,
        error := some ("Ingestion failed: Failed to access repository: " ++ e),
        current_agent := some "code_ingestion" }
    | Except.ok _ =>
      match env.llm with
      | Except.error e =>
        { ingestion_status := IngestionStatus.failed,
          repo_bundle := none,
          error := some ("Ingestion failed: LLM analysis failed: " ++ e),
          current_agent := some "code_ingestion" }
      | Except.ok analysis =>
        let files := env.files
        let bundle : RepoBundle := {
          repo_url := state.repo_url.getD "",
          ref := state.ref,
          languages := analysis.languages,
          frameworks := analysis.frameworks,
          build_systems := analysis.build_systems,
          files := files,
          total_files := files.length,
          total_size_bytes := files.foldl (fun acc f => acc + f.size_bytes) 0,
          dependencies := env.deps,
          code_files := bucket files "code",
          config_files := bucket files "config",
          doc_files := bucket files "docs",
          iac_files := bucket files "iac",
          cicd_files := bucket files "cicd",
          test_files := bucket files "tests",
          risks := analysis.risks,
          files_ingested := files.length,
          files_excluded := 0,
          secrets_redacted := 0,
          ingestion_policy := state.ingestion_policy }
        { ingestion_status := IngestionStatus.completed,
          repo_bundle := some bundle,
          error := none,
          current_agent := some "code_ingestion" }

/-! ## Concrete fixtures used by witnesses -/

def analysisEmpty : Analysis := {}

def envOk : IngestEnv :=
  { repo_access := Except.ok (),
    files := [{ path := "app.py", language := some "python", size_bytes := 10,
                classification := some "code", checksum := some "abc" }],
    deps := [],
    llm := Except.ok analysisEmpty }

def stateWithUrl : AgentState := { repo_url := some "https://github.com/acme/app" }

/-! ## C1 -/

/-- C1: `should_continue_to_architect` returns "architect" iff the ingestion
status is `completed` and `repo_bundle` is not `None`; in every other
combination (including `completed` with a null bundle) it returns "end". -/
theorem should_continue_to_architect_iff (s : AgentState) :
    (should_continue_to_architect s = "architect" ↔
      s.ingestion_status = IngestionStatus.completed ∧ s.repo_bundle ≠ none) ∧
    (should_continue_to_architect s = "end" ↔
      ¬ (s.ingestion_status = IngestionStatus.completed ∧ s.repo_bundle ≠ none)) := by
  unfold should_continue_to_architect
  by_cases h : s.ingestion_status = IngestionStatus.completed ∧ s.repo_bundle.isSome
  · rw [if_pos h]
    simp only [Option.isSome_iff_ne_none] at h
    simp [h]
  · rw [if_neg h]
    simp only [Option.isSome_iff_ne_none] at h
    simp [h]

/-! ## C2 -/

/-- C2: every update returned by `code_ingestion_node` satisfies: a `completed`
status carries a non-None `repo_bundle`, and a `failed` status carries a
non-null error string. -/
theorem code_ingestion_node_status_invariant (s : AgentState) (env : IngestEnv) :
    ((code_ingestion_node s env).ingestion_status = IngestionStatus.completed →
      (code_ingestion_node s env).repo_bundle ≠ none) ∧
    ((code_ingestion_node s env).ingestion_status = IngestionStatus.failed →
      ∃ m, (code_ingestion_node s env).error = some m) := by
  unfold code_ingestion_node
  split
  · simp
  · cases env.repo_access with
    | error e => simp
    | ok u =>
      cases env.llm with
      | error e => simp
      | ok a => simp

/-- Witness for C2: at a concrete state and environment the node completes and
the guaranteed bundle is indeed present. -/
theorem code_ingestion_node_status_invariant_witness :
    (code_ingestion_node stateWithUrl envOk).repo_bundle ≠ none :=
  (code_ingestion_node_status_invariant stateWithUrl envOk).1 rfl

/-! ## C8 -/

/-- C8: if the input `repo_url` is empty or None, the node fails immediately
with the validation message "repo_url is required"; the result is a constant
independent of the whole environment, i.e. no outcome of the source-control or
text-completion capability is consulted (zero external calls). -/
theorem code_ingestion_node_validation_fail_fast (s : AgentState) (env : IngestEnv)
    (h : repoUrlMissing s = true) :
    code_ingestion_node s env =
      { ingestion_status := IngestionStatus.failed,
        repo_bundle := none,
        error := some "repo_url is required",
        current_agent := none } := by
  unfold code_ingestion_node
  rw [if_pos h]

/-- Witness for C8: the empty-URL state takes the validation branch for a
concrete environment. -/
theorem code_ingestion_node_validation_fail_fast_witness :
    code_ingestion_node { repo_url := some "" } envOk =
      { ingestion_status := IngestionStatus.failed,
        repo_bundle := none,
        error := some "repo_url is required",
        current_agent := none } :=
  code_ingestion_node_validation_fail_fast { repo_url := some "" } envOk rfl

/-! ## C10 -/

/-- C10: every bundle produced by a successful run carries
`files_excluded = 0` and `secrets_redacted = 0` — the local counters are
initialized to 0, never updated, and copied into the bundle; the walker's skip
counts are never propagated. -/
theorem code_ingestion_node_counters_zero (s : AgentState) (env : IngestEnv)
    (b : RepoBundle) (h : (code_ingestion_node s env).repo_bundle = some b) :
    b.files_excluded = 0 ∧ b.secrets_redacted = 0 := by
  unfold code_ingestion_node at h
  split at h
  · simp at h
  · split at h
    · simp at h
    · split at h
      · simp at h
      · simp only [Option.some.injEq] at h
        subst h
        exact ⟨rfl, rfl⟩

/-- Witness for C10: a concrete successful run, with its zero counters. -/
theorem code_ingestion_node_counters_zero_witness :
    ∃ b, (code_ingestion_node stateWithUrl envOk).repo_bundle = some b ∧
      b.files_excluded = 0 ∧ b.secrets_redacted = 0 := by
  refine ⟨_, rfl, ?_⟩
  exact code_ingestion_node_counters_zero stateWithUrl envOk _ rfl

/-! ## C3 -/

/-- Category-index soundness: every path in the index list occurs exactly once
in `files` carrying the matching classification. -/
def bucketExactlyOnce (files : List FileInfo) (paths : List String) (cls : String) : Prop :=
  ∀ p ∈ paths,
    (files.filter (fun f => f.path == p && f.classification == some cls)).length = 1

theorem bucket_exactly_once (files : List FileInfo) (cls : String)
    (hnd : (files.map FileInfo.path).Nodup) :
    bucketExactlyOnce files (bucket files cls) cls := by
  intro p hp
  unfold bucket at hp
  rw [List.mem_filterMap] at hp
  obtain ⟨f, hfmem, hfp⟩ := hp
  by_cases hcls : f.classification = some cls
  · rw [if_pos hcls, Option.some.injEq] at hfp
    subst hfp
    rw [← List.countP_eq_length_filter]
    have hle1 : (files.countP (fun f' => f'.path == f.path && f'.classification == some cls))
        ≤ files.countP (fun f' => f'.path == f.path) := by
      apply List.countP_mono_left
      intro a _ ha
      exact ((Bool.and_eq_true _ _).mp ha).1
    have hcount : files.countP (fun f' => f'.path == f.path) = 1 := by
      have h1 : (files.map FileInfo.path).count f.path
          = files.countP (fun f' => f'.path == f.path) := by
        rw [List.count_eq_countP, List.countP_map]
        rfl
      rw [← h1]
      exact List.count_eq_one_of_mem hnd (List.mem_map_of_mem FileInfo.path hfmem)
    have hpos : 0 < files.countP
        (fun f' => f'.path == f.path && f'.classification == some cls) := by
      rw [List.countP_pos_iff]
      exact ⟨f, hfmem, by simp [hcls]⟩
    omega
  · rw [if_neg hcls] at hfp
    exact absurd hfp (by simp)

/-- C3: in every bundle produced by a successful run whose walker yielded
pairwise-distinct paths (the GitHub tree walk yields each file once),
`total_files` and `files_ingested` both equal `len(files)`, and every path in
each category index list appears exactly once in `files` with the matching
classification. -/
theorem code_ingestion_node_bundle_invariant (s : AgentState) (env : IngestEnv)
    (b : RepoBundle)
    (hnd : (env.files.map FileInfo.path).Nodup)
    (h : (code_ingestion_node s env).repo_bundle = some b) :
    b.total_files = b.files.length ∧ b.files_ingested = b.files.length ∧
    bucketExactlyOnce b.files b.code_files "code" ∧
    bucketExactlyOnce b.files b.config_files "config" ∧
    bucketExactlyOnce b.files b.doc_files "docs" ∧
    bucketExactlyOnce b.files b.iac_files "iac" ∧
    bucketExactlyOnce b.files b.cicd_files "cicd" ∧
    bucketExactlyOnce b.files b.test_files "tests" := by
  unfold code_ingestion_node at h
  split at h
  · simp at h
  · split at h
    · simp at h
    · split at h
      · simp at h
      · simp only [Option.some.injEq] at h
        subst h
        refine ⟨rfl, rfl, ?_, ?_, ?_, ?_, ?_, ?_⟩ <;>
          exact bucket_exactly_once env.files _ hnd

/-- Witness for C3: concrete successful run with distinct paths. -/
theorem code_ingestion_node_bundle_invariant_witness :
    ∃ b, (code_ingestion_node stateWithUrl envOk).repo_bundle = some b ∧
      b.total_files = b.files.length := by
  refine ⟨_, rfl, ?_⟩
  exact (code_ingestion_node_bundle_invariant stateWithUrl envOk _ (by decide) rfl).1

/-! ## Classification engine (src/services/github_service.py, `classify_file`)

Python matches with `fnmatch.fnmatch(path, pattern)`: on POSIX `normcase` is the
identity and `*` matches any character sequence including `/`, `?` matches any
single character. The fixed classification table uses only `*` and `?`
wildcards (no `[...]` classes), which is exactly what `globMatch` implements. -/

def globMatch : List Char → List Char → Bool
  | [], s => s.isEmpty
  | p :: ps, s =>
    if p = '*' then
      globMatch ps s ||
        (match s with
         | [] => false
         | _ :: cs => globMatch (p :: ps) cs)
    else
      match s with
      | [] => false
      | c :: cs => (p = '?' || p = c) && globMatch ps cs
termination_by p s => (p.length, s.length)

/-- Embeds `fnmatch.fnmatch(name, pattern)` for the wildcard subset used by the
classification table. -/
def fnmatch (name pattern : String) : Bool :=
  globMatch pattern.toList name.toList

/-- Embeds `GitHubService.FILE_CLASSIFICATIONS` (github_service.py lines 47-77).
Python dicts preserve insertion order, so the list order below is the evaluation
order: code, config, docs, iac, cicd, tests. -/
def FILE_CLASSIFICATIONS : List (String × List String) :=
  [("code",
    ["*.py", "*.js", "*.ts", "*.jsx", "*.tsx", "*.java", "*.cs", "*.go",
     "*.rs", "*.cpp", "*.c", "*.h", "*.hpp", "*.rb", "*.php", "*.swift",
     "*.kt", "*.scala", "*.clj", "*.ex", "*.exs"]),
   ("config",
    ["*.json", "*.yaml", "*.yml", "*.toml", "*.ini", "*.cfg", "*.conf",
     "*.properties", "*.xml", ".env*", "*.config"]),
   ("docs",
    ["*.md", "*.rst", "*.txt", "*.adoc", "*.asciidoc",
     "README*", "CHANGELOG*", "CONTRIBUTING*", "LICENSE*"]),
   ("iac",
    ["*.tf", "*.tfvars", "*.bicep", "*.arm.json",
     "*cloudformation*.json", "*cloudformation*.yaml",
     "*.pulumi.*", "Pulumi.yaml", "cdk.json"]),
   ("cicd",
    [".github/workflows/*.yml", ".github/workflows/*.yaml",
     ".gitlab-ci.yml", "Jenkinsfile*", "azure-pipelines*.yml",
     ".circleci/*", ".travis.yml", "bitbucket-pipelines.yml",
     "*.Dockerfile", "Dockerfile*", "docker-compose*.yml"]),
   ("tests",
    ["*test*.py", "*_test.py", "test_*.py", "*_test.go",
     "*Test.java", "*_test.ts", "*.spec.ts", "*.test.ts",
     "*.spec.js", "*.test.js", "*_spec.rb"])]

/-- Python `path.split("/")[-1]`: the final path segment (`splitOn` never
returns an empty list, so the default is unreachable). -/
def lastSegment (path : String) : String :=
  (path.splitOn "/").getLastD ""

/-- Embeds `GitHubService.classify_file` (github_service.py lines 169-175): the
nested loops return the classification of the first pattern, in table order,
matching the full path or the final segment; `None` when nothing matches. -/
def classify_file (path : String) : Option String :=
  FILE_CLASSIFICATIONS.findSome? fun cp =>
    cp.2.findSome? fun pat =>
      if fnmatch path pat || fnmatch (lastSegment path) pat then some cp.1 else none

/-- A category entry matches a path when one of its glob patterns matches the
full path or the final path segment. -/
def matchesCategory (path : String) (cp : String × List String) : Bool :=
  cp.2.any fun pat => fnmatch path pat || fnmatch (lastSegment path) pat

/-- Modelled from the spec wording for C4: the first category, in the declared
order, one of whose patterns matches; `None` when no category matches. -/
def classify_file_spec (path : String) : Option String :=
  (FILE_CLASSIFICATIONS.find? (matchesCategory path)).map Prod.fst

theorem findSome?_if_const {α β : Type} (l : List α) (m : α → Bool) (c : β) :
    (l.findSome? fun a => if m a then some c else none)
      = if l.any m then some c else none := by
  induction l with
  | nil => rfl
  | cons a t ih => by_cases h : m a <;> simp [List.findSome?_cons, h, ih]

theorem findSome?_guard_eq_find?_map {α β : Type} (l : List α) (q : α → Bool) (g : α → β) :
    (l.findSome? fun a => if q a then some (g a) else none) = (l.find? q).map g := by
  induction l with
  | nil => rfl
  | cons a t ih => by_cases h : q a <;> simp [List.findSome?_cons, List.find?_cons, h, ih]

/-! ## C4 -/

/-- C4: `classify_file` evaluates the table in the declared order
code, config, docs, iac, cicd, tests and returns the first category one of
whose patterns matches the full path or the final segment; it returns `None`
iff no pattern matches. It is a total function of the path, hence
deterministic. -/
theorem classify_file_eq_spec (path : String) :
    classify_file path = classify_file_spec path ∧
    FILE_CLASSIFICATIONS.map Prod.fst = ["code", "config", "docs", "iac", "cicd", "tests"] ∧
    (classify_file path = none ↔
      ∀ cp ∈ FILE_CLASSIFICATIONS, matchesCategory path cp = false) := by
  have hmain : classify_file path = classify_file_spec path := by
    unfold classify_file classify_file_spec
    have h1 : (fun cp : String × List String =>
        cp.2.findSome? fun pat =>
          if fnmatch path pat || fnmatch (lastSegment path) pat then some cp.1 else none)
        = fun cp => if matchesCategory path cp then some cp.1 else none := by
      funext cp
      exact findSome?_if_const cp.2 _ cp.1
    rw [h1]
    exact findSome?_guard_eq_find?_map FILE_CLASSIFICATIONS (matchesCategory path) Prod.fst
  refine ⟨hmain, rfl, ?_⟩
  rw [hmain]
  unfold classify_file_spec
  rw [Option.map_eq_none', List.find?_eq_none]
  constructor
  · intro h cp hcp
    exact Bool.eq_false_iff.mpr (h cp hcp)
  · intro h cp hcp
    exact Bool.eq_false_iff.mp (h cp hcp)

/-! ## Dependency parsing (src/services/github_service.py, `_parse_dependencies`)

The pip branch iterates `content.split("\n")`, strips each line, skips empty
lines and `#` comments, and applies the anchored regex
`([a-zA-Z0-9_-]+)([<>=!~]+)?(.+)?` to the line: group 1 is the maximal leading
run of name characters (required), group 2 the maximal following run of
comparator characters (optional), group 3 the remainder (optional; `None` when
empty). Since groups 2 and 3 are optional and group 3 accepts any character,
the greedy maximal-run reading of the backtracking regex is exact. -/

def isPySpace (c : Char) : Bool :=
  c = ' ' || c = '\t' || c = '\n' || c = '\r' || c = '\x0b' || c = '\x0c'

/-- Python `content.split("\n")`: split at every newline, keeping empty pieces. -/
def splitLines : List Char → List (List Char)
  | [] => [[]]
  | c :: cs =>
    if c = '\n' then [] :: splitLines cs
    else
      match splitLines cs with
      | [] => [[c]]
      | l :: ls => (c :: l) :: ls

/-- Python `str.strip()`: drop whitespace from both ends. -/
def pyStrip (cs : List Char) : List Char :=
  ((cs.dropWhile isPySpace).reverse.dropWhile isPySpace).reverse

def isReqNameChar (c : Char) : Bool :=
  ('a' ≤ c && c ≤ 'z') || ('A' ≤ c && c ≤ 'Z') || ('0' ≤ c && c ≤ '9') || c = '_' || c = '-'

def isReqOpChar (c : Char) : Bool :=
  c = '<' || c = '>' || c = '=' || c = '!' || c = '~'

/-- One stripped requirements line through the pip regex (github_service.py
line 397): `None` when the line does not start with a name character. -/
def reqLineMatch (line : List Char) : Option DependencyInfo :=
  let name := line.takeWhile isReqNameChar
  if name.isEmpty then none
  else
    let rest := line.drop name.length
    let ops := rest.takeWhile isReqOpChar
    let ver := rest.drop ops.length
    some { name := String.mk name,
           version := if ver.isEmpty then none else some (String.mk ver),
           package_manager := "pip" }

/-- Embeds `GitHubService._parse_dependencies` (github_service.py lines
383-427; the Lean name drops the leading underscore). The npm branch parses
JSON with `json.loads`; it is abstracted as the injected `npmParse` argument
(no claim depends on its output). Every other manager falls through to the
empty list, as in the source ("Add more parsers as needed"). -/
def parse_dependencies (npmParse : String → List DependencyInfo)
    (content pkg_manager filename : String) : List DependencyInfo :=
  if pkg_manager == "pip" && filename == "requirements.txt" then
    (splitLines content.toList).filterMap fun raw =>
      let line := pyStrip raw
      if !line.isEmpty && !(line.headD ' ' = '#') then reqLineMatch line else none
  else if pkg_manager == "npm" && filename == "package.json" then
    npmParse content
  else
    []

/-! ## C7 -/

/-- C7: on content "flask==2.0\n# comment\nrequests\n" the pip parser yields
exactly the two records flask/2.0 and requests/None, in that order, both tagged
with package manager pip. -/
theorem parse_dependencies_pip_example (np : String → List DependencyInfo) :
    parse_dependencies np "flask==2.0\n# comment\nrequests\n" "pip" "requirements.txt" =
      [{ name := "flask", version := some "2.0", package_manager := "pip" },
       { name := "requests", version := none, package_manager := "pip" }] := by
  rfl

/-! ## Dependency discovery (src/services/github_service.py, `discover_dependencies`)

For each (package manager, candidate filename) of `DEPENDENCY_FILES` (dict
insertion order), candidates containing `*` are skipped without a fetch; each
other candidate is fetched from the repository root. The source wraps the body
in `try: ... except GithubException: continue  # File doesn't exist
except Exception as e: logger.warning(...); continue`: EVERY GithubException —
both the 404 "not found" and 403 auth/rate-limit failures — and every other
exception lands on `continue`, so no failure ever propagates out of the
function; its result type below is accordingly a plain list. A fetched
directory (`isinstance(content_file, list)`) is also skipped. `found` models a
successful fetch + base64 decode; a decode failure is one of the `otherExc`
outcomes. -/

/-- Embeds `GitHubService.DEPENDENCY_FILES` (github_service.py lines 80-90). -/
def DEPENDENCY_FILES : List (String × List String) :=
  [("npm", ["package.json", "package-lock.json", "yarn.lock", "pnpm-lock.yaml"]),
   ("pip", ["requirements.txt", "requirements*.txt", "Pipfile", "Pipfile.lock",
            "pyproject.toml", "setup.py"]),
   ("maven", ["pom.xml"]),
   ("gradle", ["build.gradle", "build.gradle.kts", "settings.gradle", "settings.gradle.kts"]),
   ("cargo", ["Cargo.toml", "Cargo.lock"]),
   ("go", ["go.mod", "go.sum"]),
   ("dotnet", ["*.csproj", "*.fsproj", "*.vbproj", "packages.config", "*.sln"]),
   ("bundler", ["Gemfile", "Gemfile.lock"]),
   ("composer", ["composer.json", "composer.lock"])]

/-- Outcome of `repo.get_contents(pattern, ref)` + decode for one candidate:
a 404 GithubException is "file absent"; any other status (403 auth denied,
403 rate limit, 5xx transport) is the same exception class with a different
status; `otherExc` covers non-GithubException failures (e.g. decode errors). -/
inductive FetchResult where
  | found (content : String)
  | directory
  | githubExc (status : Nat)
  | otherExc (msg : String)

/-- Python `"*" in pattern`. -/
def hasStar (pat : String) : Bool := pat.toList.any (fun c => c = '*')

/-- Embeds `GitHubService.discover_dependencies` (github_service.py lines
304-355) over a fetch oracle: glob candidates skipped, directories skipped,
every exception (`GithubException` of ANY status, and any other exception)
skipped with `continue`. The function is total: no failure propagates. -/
def discover_dependencies (npmParse : String → List DependencyInfo)
    (fetch : String → FetchResult) : List DependencyInfo :=
  DEPENDENCY_FILES.foldl (fun acc pm =>
    pm.2.foldl (fun acc2 pat =>
      if hasStar pat then acc2
      else
        match fetch pat with
        | FetchResult.found content => acc2 ++ parse_dependencies npmParse content pm.1 pat
        | FetchResult.directory => acc2
        | FetchResult.githubExc _ => acc2
        | FetchResult.otherExc _ => acc2) acc) []

/-! ## C9 -/

/-- Fetch oracle exhibiting the C9 divergence: the very first candidate
(`package.json`) fails with a 403 auth-denied GithubException — a transport or
authentication failure distinct from "not found" — `requirements.txt` exists,
and every other candidate is absent (404). -/
def fetchAuthDenied : String → FetchResult :=
  fun pat =>
    if pat == "package.json" then FetchResult.githubExc 403
    else if pat == "requirements.txt" then FetchResult.found "flask==2.0"
    else FetchResult.githubExc 404

/-- C9 (evaluation at the failing input): with a 403 authentication failure on
`package.json`, `discover_dependencies` returns normally — the auth failure is
silently skipped exactly like a 404, iteration continues, and the later
`requirements.txt` candidate is still parsed. The claim (and the
`# File doesn't exist` comment in the source) says a non-404 failure should
propagate as an error; the blanket `except GithubException: continue` makes
that impossible. -/
theorem discover_dependencies_swallows_auth_error (np : String → List DependencyInfo) :
    discover_dependencies np fetchAuthDenied =
      [{ name := "flask", version := some "2.0", package_manager := "pip" }] := by
  rfl

/-! ## Secret redaction (src/services/github_service.py, `redact_secrets`)

`redact_secrets` walks `SECRET_PATTERNS` in order; for each compiled pattern it
counts `pattern.findall(result)` and rewrites `result = pattern.sub(placeholder,
result)`. What matters for the fold is, per pattern, the number of
non-overlapping leftmost matches and the substituted text, so the embedding
below implements exactly the Python `re` backtracking semantics for the regex
features these ten patterns use: literals (case-sensitive or `(?i)`),
alternation (left preference), `?` on a single-char class or group, greedy
`*`/`{n}`/`{n,}` on single-char classes, and character classes. The embedding
was cross-checked against CPython `re` on the ten patterns. -/

inductive Re where
  | eps
  | ch (p : Char → Bool)
  | seq (a b : Re)
  | alt (a b : Re)
  | opt (a : Re)
  | starCh (p : Char → Bool)
  | repCh (p : Char → Bool) (n : Nat)

/-- Suffixes remaining after a match of `re` at the head of `s`, in the
backtracking engine's preference order (greedy quantifiers first, left
alternative first). The first entry is the extent the engine commits to. -/
def matchRem : Re → List Char → List (List Char)
  | Re.eps, s => [s]
  | Re.ch p, s =>
    match s with
    | [] => []
    | c :: cs => if p c then [cs] else []
  | Re.seq a b, s => (matchRem a s).flatMap (matchRem b)
  | Re.alt a b, s => matchRem a s ++ matchRem b s
  | Re.opt a, s => matchRem a s ++ [s]
  | Re.starCh p, s =>
    let k := (s.takeWhile p).length
    (List.range (k + 1)).map (fun i => s.drop (k - i))
  | Re.repCh p n, s =>
    if n ≤ s.length && (s.take n).all p then [s.drop n] else []

/-- Leftmost match: smallest start index with a nonempty preference list,
together with the preferred (first) remainder there. -/
def scan (re : Re) : List Char → Option (Nat × List Char)
  | [] =>
    match (matchRem re []).head? with
    | some rem => some (0, rem)
    | none => none
  | c :: cs =>
    match (matchRem re (c :: cs)).head? with
    | some rem => some (0, rem)
    | none =>
      match scan re cs with
      | some p => some (p.1 + 1, p.2)
      | none => none

/-- Python `pattern.sub(ph, s)` paired with the number of matches replaced
(= `len(pattern.findall(s))`: the same non-overlapping left-to-right scan).
Fuel-indexed for totality; `length s + 1` fuel always suffices for patterns
that never match the empty string, which covers all ten secret patterns. The
empty-match branch mirrors Python: emit the placeholder, copy one character,
resume after it. -/
def subAll (re : Re) (ph : List Char) : Nat → List Char → List Char × Nat
  | 0, s => (s, 0)
  | Nat.succ fuel, s =>
    match scan re s with
    | none => (s, 0)
    | some (i, rem) =>
      let pre := s.take i
      let suf := s.drop i
      let m := suf.take (suf.length - rem.length)
      if m.isEmpty then
        let r := subAll re ph fuel rem.tail
        (pre ++ ph ++ rem.take 1 ++ r.1, r.2 + 1)
      else
        let r := subAll re ph fuel rem
        (pre ++ ph ++ r.1, r.2 + 1)

/-! Character classes appearing in SECRET_PATTERNS. Python `\s` additionally
matches some Unicode spaces; the ASCII reading below agrees with CPython on
ASCII text and the universal statements proved here do not depend on it. -/

def isWsC (c : Char) : Bool :=
  c = ' ' || c = '\t' || c = '\n' || c = '\r' || c = '\x0b' || c = '\x0c'

def isQuoteC (c : Char) : Bool := c = '"' || c = '\''

def isAlnumC (c : Char) : Bool :=
  ('a' ≤ c && c ≤ 'z') || ('A' ≤ c && c ≤ 'Z') || ('0' ≤ c && c ≤ '9')

def isUpperDigitC (c : Char) : Bool :=
  ('A' ≤ c && c ≤ 'Z') || ('0' ≤ c && c ≤ '9')

def isKeyCharC (c : Char) : Bool := isAlnumC c || c = '_' || c = '-'

def isTokCharC (c : Char) : Bool := isAlnumC c || c = '_' || c = '-' || c = '.'

def isNotWsQuoteC (c : Char) : Bool := !(isWsC c || c = '"' || c = '\'')

def isNotQuoteC (c : Char) : Bool := !(c = '"' || c = '\'')

def isSecret40C (c : Char) : Bool := isAlnumC c || c = '/' || c = '+' || c = '='

def isAzureC (c : Char) : Bool := isAlnumC c || c = '-'

def isUscoreDashC (c : Char) : Bool := c = '_' || c = '-'

def reSeqList (rs : List Re) : Re := rs.foldr Re.seq Re.eps

def reLit (s : String) : Re :=
  reSeqList (s.toList.map (fun c => Re.ch (fun d => d = c)))

/-- Case-insensitive literal, for the `(?i)` patterns. -/
def reLitCI (s : String) : Re :=
  reSeqList (s.toList.map (fun c => Re.ch (fun d => d.toLower = c.toLower)))

def reAtLeast (p : Char → Bool) (n : Nat) : Re := Re.seq (Re.repCh p n) (Re.starCh p)

def quoteOpt : Re := Re.opt (Re.ch isQuoteC)

def wsStar : Re := Re.starCh isWsC

def sepColonEq : Re := Re.ch (fun c => c = ':' || c = '=')

def optSep : Re := Re.opt (Re.ch isUscoreDashC)

/-! The ten SECRET_PATTERNS (github_service.py lines 93-112), in order. -/

def pat_api_key : Re :=
  reSeqList [Re.alt (reSeqList [reLitCI "api", optSep, reLitCI "key"]) (reLitCI "apikey"),
    wsStar, sepColonEq, wsStar, quoteOpt, reAtLeast isKeyCharC 20, quoteOpt]

def pat_password : Re :=
  reSeqList [Re.alt (reLitCI "password") (Re.alt (reLitCI "passwd") (reLitCI "pwd")),
    wsStar, sepColonEq, wsStar, quoteOpt, reAtLeast isNotWsQuoteC 8, quoteOpt]

def pat_token : Re :=
  reSeqList [Re.alt (reLitCI "token") (Re.alt (reLitCI "bearer") (reLitCI "auth")),
    wsStar, sepColonEq, wsStar, quoteOpt, reAtLeast isTokCharC 20, quoteOpt]

def pat_aws_access : Re := Re.seq (reLit "AKIA") (Re.repCh isUpperDigitC 16)

def pat_aws_secret : Re :=
  reSeqList [reLitCI "aws", optSep, reLitCI "secret", optSep, reLitCI "access", optSep,
    reLitCI "key", wsStar, sepColonEq, wsStar, quoteOpt, Re.repCh isSecret40C 40, quoteOpt]

def pat_azure : Re :=
  reSeqList [Re.alt (reLitCI "azure") (reLitCI "az"), optSep,
    Re.alt (reLitCI "client") (Re.alt (reLitCI "tenant") (reLitCI "subscription")), optSep,
    Re.alt (reLitCI "id") (reLitCI "secret"),
    wsStar, sepColonEq, wsStar, quoteOpt, Re.repCh isAzureC 36, quoteOpt]

def pat_connection : Re :=
  reSeqList [reLitCI "connection", optSep, reLitCI "string",
    wsStar, sepColonEq, wsStar, quoteOpt, reAtLeast isNotQuoteC 1, quoteOpt]

def pat_private_key : Re :=
  reSeqList [reLit "-----BEGIN ",
    Re.alt (reLit "RSA ") (Re.alt (reLit "EC ") (Re.alt (reLit "OPENSSH ") Re.eps)),
    reLit "PRIVATE KEY-----"]

def pat_ghp : Re := Re.seq (reLit "ghp_") (Re.repCh isAlnumC 36)

def pat_github_pat : Re :=
  reSeqList [reLit "github_pat_", Re.repCh isAlnumC 22, reLit "_", Re.repCh isAlnumC 59]

def SECRET_PATTERNS : List (Re × String) :=
  [(pat_api_key, "API_KEY"),
   (pat_password, "PASSWORD"),
   (pat_token, "TOKEN"),
   (pat_aws_access, "AWS_ACCESS_KEY"),
   (pat_aws_secret, "AWS_SECRET"),
   (pat_azure, "AZURE_CREDENTIAL"),
   (pat_connection, "CONNECTION_STRING"),
   (pat_private_key, "PRIVATE_KEY"),
   (pat_ghp, "GITHUB_PAT"),
   (pat_github_pat, "GITHUB_PAT")]

def placeholder (nm : String) : String := "[REDACTED_" ++ nm ++ "]"

/-- One iteration of the redaction loop: count this pattern's matches and
substitute its placeholder (the Python `if matches:` guard is a no-op, since a
match-free `sub` is the identity). -/
def applyPattern (acc : String × Nat) (pr : Re × String) : String × Nat :=
  let s := acc.1.toList
  let r := subAll pr.1 (placeholder pr.2).toList (s.length + 1) s
  (String.mk r.1, acc.2 + r.2)

/-- Embeds `GitHubService.redact_secrets` (github_service.py lines 184-200):
fold the ten patterns in order over the content, accumulating the redaction
count. -/
def redact_secrets (content : String) : String × Nat :=
  SECRET_PATTERNS.foldl applyPattern (content, 0)

/-! ## C5 -/

/-- C5 counterexample: on the text `password = auth = 'ABCDEFGHIJ1234567890'`
the first pass rewrites the TOKEN match to `password = [REDACTED_TOKEN]`, and a
second application of `redact_secrets` does NOT return that same text with
count 0 — the PASSWORD rule (evaluated before TOKEN, so unable to see the
placeholder during the first pass) matches the TOKEN placeholder as an
8+-character value. Idempotence on its own output fails. -/
theorem redact_secrets_not_idempotent :
    redact_secrets ((redact_secrets "password = auth = 'ABCDEFGHIJ1234567890'").1) ≠
      ((redact_secrets "password = auth = 'ABCDEFGHIJ1234567890'").1, 0) := by
  decide

/-- C5 amended: the redaction count is always nonnegative, but `redact_secrets`
is not idempotent on its own output: a placeholder written by a later rule can
be matched by an earlier rule on a second pass — concretely, the first pass
maps `password = auth = 'ABCDEFGHIJ1234567890'` to
`password = [REDACTED_TOKEN]` (count 1) and the second pass redacts again,
yielding `[REDACTED_PASSWORD]` with count 1 rather than 0. -/
theorem redact_secrets_amended :
    (∀ s : String, 0 ≤ (redact_secrets s).2) ∧
    redact_secrets "password = auth = 'ABCDEFGHIJ1234567890'"
      = ("password = [REDACTED_TOKEN]", 1) ∧
    redact_secrets "password = [REDACTED_TOKEN]" = ("[REDACTED_PASSWORD]", 1) := by
  refine ⟨fun s => Nat.zero_le _, by decide, by decide⟩

/-! ## C6 — machinery

An "AKIA window" is a 20-character window matching the AWS access key pattern
`AKIA[0-9A-Z]{16}`. The proof shows (1) a text containing such a window always
produces a total redaction count of at least 1 (if no earlier rule fired, the
text reaches the AWS rule unchanged and that rule fires), and (2) the output of
the AWS rule's substitution pass contains no AKIA window at all, and every
later rule preserves that absence, because every placeholder is bracket-
delimited and bracket characters cannot occur in an AKIA window. -/

def win (l : List Char) (i : Nat) : List Char := (l.drop i).take 20

def akiaOkB (w : List Char) : Bool :=
  w.length == 20 && w.take 4 == ['A', 'K', 'I', 'A'] && (w.drop 4).all isUpperDigitC

def AkiaAt (l : List Char) (i : Nat) : Prop := akiaOkB (win l i) = true

instance (l : List Char) (i : Nat) : Decidable (AkiaAt l i) := by
  unfold AkiaAt
  infer_instance

def ContainsAkia (l : List Char) : Prop := ∃ i, AkiaAt l i

def containsAkiaB (l : List Char) : Bool :=
  (List.range l.length).any (fun i => akiaOkB (win l i))

theorem akiaOk_length {w : List Char} (h : akiaOkB w = true) : w.length = 20 := by
  unfold akiaOkB at h
  simp only [Bool.and_eq_true, beq_iff_eq] at h
  exact h.1.1

theorem akiaAt_le {l : List Char} {i : Nat} (h : AkiaAt l i) : i + 20 ≤ l.length := by
  have hlen := akiaOk_length h
  unfold win at hlen
  rw [List.length_take, List.length_drop] at hlen
  omega

theorem containsAkia_iff {l : List Char} : ContainsAkia l ↔ containsAkiaB l = true := by
  constructor
  · rintro ⟨i, hi⟩
    have hle := akiaAt_le hi
    unfold containsAkiaB
    rw [List.any_eq_true]
    exact ⟨i, List.mem_range.mpr (by omega), hi⟩
  · intro h
    unfold containsAkiaB at h
    rw [List.any_eq_true] at h
    obtain ⟨i, _, hi⟩ := h
    exact ⟨i, hi⟩

theorem akia_chars {w : List Char} (h : akiaOkB w = true) :
    ∀ c ∈ w, c ≠ '[' ∧ c ≠ ']' := by
  unfold akiaOkB at h
  simp only [Bool.and_eq_true, beq_iff_eq] at h
  intro c hc
  rw [← List.take_append_drop 4 w] at hc
  rcases List.mem_append.mp hc with h4 | hrest
  · rw [h.1.2] at h4
    simp only [List.mem_cons, List.not_mem_nil, or_false] at h4
    rcases h4 with rfl | rfl | rfl | rfl <;> exact ⟨by decide, by decide⟩
  · have := (List.all_eq_true.mp h.2) c hrest
    have hne1 : isUpperDigitC '[' = false := by decide
    have hne2 : isUpperDigitC ']' = false := by decide
    constructor <;> rintro rfl <;> simp_all

theorem mem_take_append {u v : List Char} {c : Char} {n : Nat} (h : u.length < n) :
    c ∈ List.take n (u ++ c :: v) := by
  rw [List.take_append_eq_append_take]
  refine List.mem_append.mpr (Or.inr ?_)
  obtain ⟨m, hm⟩ : ∃ m, n - u.length = m + 1 := ⟨n - u.length - 1, by omega⟩
  rw [hm]
  simp

/-! infix lifting -/

theorem containsAkia_infix {l₁ l₂ : List Char} (h : l₁ <:+: l₂)
    (hc : ContainsAkia l₁) : ContainsAkia l₂ := by
  obtain ⟨u, v, huv⟩ := h
  obtain ⟨i, hi⟩ := hc
  have hle := akiaAt_le hi
  refine ⟨u.length + i, ?_⟩
  unfold AkiaAt win at hi ⊢
  rw [← huv]
  have hdrop : ((u ++ l₁) ++ v).drop (u.length + i) = l₁.drop i ++ v := by
    rw [List.append_assoc, List.drop_append_eq_append_drop,
      List.drop_eq_nil_of_le (by omega : u.length ≤ u.length + i), List.nil_append,
      List.drop_append_eq_append_drop]
    rw [(by omega : u.length + i - u.length = i)]
    rw [(by omega : i - l₁.length = 0), List.drop_zero]
  rw [hdrop, List.take_append_eq_append_take]
  have h20 : 20 - (l₁.drop i).length = 0 := by
    rw [List.length_drop]
    omega
  rw [h20]
  simpa using hi

/-! append/drop/take helpers -/

theorem drop_append_left {x y : List Char} {i : Nat} (h : i ≤ x.length) :
    (x ++ y).drop i = x.drop i ++ y := by
  rw [List.drop_append_eq_append_drop, (by omega : i - x.length = 0), List.drop_zero]

theorem drop_append_right {x y : List Char} {i : Nat} (h : x.length ≤ i) :
    (x ++ y).drop i = y.drop (i - x.length) := by
  rw [List.drop_append_eq_append_drop, List.drop_eq_nil_of_le h, List.nil_append]

theorem take_append_long {x y : List Char} {n : Nat} (h : n ≤ x.length) :
    (x ++ y).take n = x.take n := by
  rw [List.take_append_eq_append_take, (by omega : n - x.length = 0), List.take_zero,
    List.append_nil]

/-- Span lemma: surrounding a bracketed, AKIA-free placeholder with two
AKIA-free texts yields an AKIA-free text — an AKIA window contains neither
`[` nor `]`, so it can neither cross a placeholder boundary nor sit inside
the placeholder. -/
theorem containsAkia_append_span (a mid b : List Char)
    (hpa : ¬ ContainsAkia ('[' :: (mid ++ [']'])))
    (ha : ¬ ContainsAkia a) (hb : ¬ ContainsAkia b) :
    ¬ ContainsAkia (a ++ ('[' :: (mid ++ [']'])) ++ b) := by
  intro hCC
  obtain ⟨i, hi⟩ := hCC
  have hle := akiaAt_le hi
  have hphlen : ('[' :: (mid ++ [']'])).length = mid.length + 2 := by simp
  rw [List.length_append, List.length_append, hphlen] at hle
  by_cases hA : i + 20 ≤ a.length
  · apply ha
    refine ⟨i, ?_⟩
    unfold AkiaAt win at hi ⊢
    rw [List.append_assoc, drop_append_left (by omega),
      take_append_long (by rw [List.length_drop]; omega)] at hi
    exact hi
  · by_cases hB : a.length + (mid.length + 2) ≤ i
    · apply hb
      refine ⟨i - (a.length + (mid.length + 2)), ?_⟩
      unfold AkiaAt win at hi ⊢
      rw [drop_append_right (by rw [List.length_append, hphlen]; omega),
        List.length_append, hphlen] at hi
      exact hi
    · by_cases hC : i ≤ a.length
      · have hmem : '[' ∈ win (a ++ ('[' :: (mid ++ [']'])) ++ b) i := by
          unfold win
          rw [List.append_assoc, drop_append_left hC, List.cons_append]
          exact mem_take_append (by rw [List.length_drop]; omega)
        exact (akia_chars hi '[' hmem).1 rfl
      · by_cases hD : i + 20 ≤ a.length + (mid.length + 2)
        · apply hpa
          refine ⟨i - a.length, ?_⟩
          unfold AkiaAt win at hi ⊢
          rw [List.append_assoc, drop_append_right (by omega),
            drop_append_left (by rw [hphlen]; omega),
            take_append_long (by rw [List.length_drop, hphlen]; omega)] at hi
          exact hi
        · have hmem : ']' ∈ win (a ++ ('[' :: (mid ++ [']'])) ++ b) i := by
            unfold win
            rw [List.append_assoc, drop_append_right (by omega : a.length ≤ i)]
            obtain ⟨k, hk⟩ : ∃ k, i - a.length = k + 1 := ⟨i - a.length - 1, by omega⟩
            rw [hk, List.cons_append, List.drop_succ_cons, List.append_assoc,
              List.singleton_append, drop_append_left (by omega : k ≤ mid.length)]
            exact mem_take_append (by rw [List.length_drop]; omega)
          exact (akia_chars hi ']' hmem).2 rfl

/-! matchRem structural properties -/

theorem head?_some_mem {α : Type} {l : List α} {a : α} (h : l.head? = some a) : a ∈ l := by
  cases l with
  | nil => simp at h
  | cons x t =>
    simp only [List.head?_cons, Option.some.injEq] at h
    exact h ▸ List.mem_cons_self x t

theorem matchRem_suffix : ∀ (re : Re) (s rem : List Char), rem ∈ matchRem re s → rem <:+ s := by
  intro re
  induction re with
  | eps =>
    intro s rem h
    simp only [matchRem, List.mem_singleton] at h
    exact h ▸ List.suffix_refl s
  | ch p =>
    intro s rem h
    cases s with
    | nil => simp [matchRem] at h
    | cons c cs =>
      simp only [matchRem] at h
      by_cases hp : p c
      · rw [if_pos hp, List.mem_singleton] at h
        exact h ▸ List.suffix_cons c cs
      · rw [if_neg hp] at h
        simp at h
  | seq a b iha ihb =>
    intro s rem h
    simp only [matchRem, List.mem_flatMap] at h
    obtain ⟨mid, hmid, hrem⟩ := h
    exact (ihb mid rem hrem).trans (iha s mid hmid)
  | alt a b iha ihb =>
    intro s rem h
    rcases List.mem_append.mp h with h1 | h2
    · exact iha s rem h1
    · exact ihb s rem h2
  | opt a iha =>
    intro s rem h
    rcases List.mem_append.mp h with h1 | h2
    · exact iha s rem h1
    · rw [List.mem_singleton] at h2
      exact h2 ▸ List.suffix_refl s
  | starCh p =>
    intro s rem h
    simp only [matchRem, List.mem_map] at h
    obtain ⟨j, _, hj⟩ := h
    exact hj ▸ List.drop_suffix _ s
  | repCh p n =>
    intro s rem h
    simp only [matchRem] at h
    split at h
    · rw [List.mem_singleton] at h
      exact h ▸ List.drop_suffix n s
    · simp at h

/-- Syntactic criterion: a regex that must consume at least one character. -/
def consumes : Re → Bool
  | Re.eps => false
  | Re.ch _ => true
  | Re.seq a b => consumes a || consumes b
  | Re.alt a b => consumes a && consumes b
  | Re.opt _ => false
  | Re.starCh _ => false
  | Re.repCh _ n => decide (0 < n)

theorem matchRem_length_lt : ∀ (re : Re), consumes re = true →
    ∀ s rem, rem ∈ matchRem re s → rem.length < s.length := by
  intro re
  induction re with
  | eps => intro h; simp [consumes] at h
  | ch p =>
    intro _ s rem h
    cases s with
    | nil => simp [matchRem] at h
    | cons c cs =>
      simp only [matchRem] at h
      by_cases hp : p c
      · rw [if_pos hp, List.mem_singleton] at h
        subst h
        simp
      · rw [if_neg hp] at h
        simp at h
  | seq a b iha ihb =>
    intro hc s rem h
    simp only [matchRem, List.mem_flatMap] at h
    obtain ⟨mid, hmid, hrem⟩ := h
    rcases Bool.or_eq_true (consumes a) (consumes b) |>.mp (by simpa [consumes] using hc)
      with hca | hcb
    · exact lt_of_le_of_lt (matchRem_suffix b mid rem hrem).length_le (iha hca s mid hmid)
    · exact lt_of_lt_of_le (ihb hcb mid rem hrem) (matchRem_suffix a s mid hmid).length_le
  | alt a b iha ihb =>
    intro hc s rem h
    have hc2 := Bool.and_eq_true (consumes a) (consumes b) |>.mp (by simpa [consumes] using hc)
    rcases List.mem_append.mp h with h1 | h2
    · exact iha hc2.1 s rem h1
    · exact ihb hc2.2 s rem h2
  | opt a iha => intro h; simp [consumes] at h
  | starCh p => intro h; simp [consumes] at h
  | repCh p n =>
    intro hc s rem h
    have hn : 0 < n := by simpa [consumes] using hc
    simp only [matchRem] at h
    split at h
    · rename_i hcond
      rw [List.mem_singleton] at h
      subst h
      simp only [Bool.and_eq_true, decide_eq_true_eq] at hcond
      rw [List.length_drop]
      omega
    · simp at h

/-! scan properties -/

theorem scan_none_matchRem (re : Re) : ∀ s, scan re s = none →
    ∀ i, matchRem re (s.drop i) = [] := by
  intro s
  induction s with
  | nil =>
    intro h i
    simp only [scan] at h
    cases hh : (matchRem re []).head? with
    | some rem => rw [hh] at h; simp at h
    | none =>
      rw [List.drop_nil]
      exact List.head?_eq_none_iff.mp hh
  | cons c cs ih =>
    intro h i
    simp only [scan] at h
    cases hh : (matchRem re (c :: cs)).head? with
    | some rem => rw [hh] at h; simp at h
    | none =>
      rw [hh] at h
      cases i with
      | zero => exact List.head?_eq_none_iff.mp hh
      | succ j =>
        rw [List.drop_succ_cons]
        cases hs : scan re cs with
        | some p => rw [hs] at h; simp at h
        | none => exact ih hs j

theorem scan_some_spec (re : Re) : ∀ s i rem, scan re s = some (i, rem) →
    rem ∈ matchRem re (s.drop i) ∧ ∀ j, j < i → matchRem re (s.drop j) = [] := by
  intro s
  induction s with
  | nil =>
    intro i rem h
    simp only [scan] at h
    cases hh : (matchRem re []).head? with
    | none => rw [hh] at h; simp at h
    | some r =>
      rw [hh] at h
      simp only [Option.some.injEq, Prod.mk.injEq] at h
      obtain ⟨rfl, rfl⟩ := h
      exact ⟨head?_some_mem hh, fun j hj => absurd hj (by omega)⟩
  | cons c cs ih =>
    intro i rem h
    simp only [scan] at h
    cases hh : (matchRem re (c :: cs)).head? with
    | some r =>
      rw [hh] at h
      simp only [Option.some.injEq, Prod.mk.injEq] at h
      obtain ⟨rfl, rfl⟩ := h
      exact ⟨head?_some_mem hh, fun j hj => absurd hj (by omega)⟩
    | none =>
      rw [hh] at h
      cases hs : scan re cs with
      | none => rw [hs] at h; simp at h
      | some p =>
        rw [hs] at h
        obtain ⟨j', rem'⟩ := p
        simp only [Option.some.injEq, Prod.mk.injEq] at h
        obtain ⟨h1, h2⟩ := h
        subst h1
        subst h2
        have hp := ih j' rem' hs
        constructor
        · rw [List.drop_succ_cons]
          exact hp.1
        · intro j hj
          cases j with
          | zero => exact List.head?_eq_none_iff.mp hh
          | succ k =>
            rw [List.drop_succ_cons]
            exact hp.2 k (by omega)

/-! subAll properties -/

theorem isEmpty_false_of_length_pos {l : List Char} (h : 0 < l.length) :
    l.isEmpty = false := by
  cases l with
  | nil => simp at h
  | cons c t => rfl

theorem subAll_count_zero (re : Re) (ph : List Char) :
    ∀ fuel s, (subAll re ph fuel s).2 = 0 → (subAll re ph fuel s).1 = s := by
  intro fuel s
  cases fuel with
  | zero => intro _; rfl
  | succ n =>
    cases hs : scan re s with
    | none => intro _; simp [subAll, hs]
    | some p =>
      obtain ⟨i, rem⟩ := p
      intro h
      exfalso
      simp only [subAll, hs] at h
      split at h <;> simp at h

theorem subAll_count_pos (re : Re) (ph : List Char) (n : Nat) (s : List Char)
    (h : scan re s ≠ none) : 0 < (subAll re ph (n + 1) s).2 := by
  cases hs : scan re s with
  | none => exact absurd hs h
  | some p =>
    obtain ⟨i, rem⟩ := p
    simp only [subAll, hs]
    split <;> simp

/-- Substitution with a bracketed AKIA-free placeholder preserves
AKIA-freeness, for any pattern that always consumes input. -/
theorem subAll_preserves_noAkia (re : Re) (hc : consumes re = true) (mid : List Char)
    (hpa : ¬ ContainsAkia ('[' :: (mid ++ [']']))) :
    ∀ fuel s, ¬ ContainsAkia s →
      ¬ ContainsAkia (subAll re ('[' :: (mid ++ [']'])) fuel s).1 := by
  intro fuel
  induction fuel with
  | zero => intro s h; exact h
  | succ n ih =>
    intro s hs
    cases hscan : scan re s with
    | none => simpa [subAll, hscan] using hs
    | some p =>
      obtain ⟨i, rem⟩ := p
      have hspec := scan_some_spec re s i rem hscan
      have hlt : rem.length < (s.drop i).length := matchRem_length_lt re hc _ _ hspec.1
      have hm : ((s.drop i).take ((s.drop i).length - rem.length)).isEmpty = false := by
        apply isEmpty_false_of_length_pos
        rw [List.length_take]
        have : 0 < (s.drop i).length - rem.length := by omega
        omega
      simp only [subAll, hscan, hm, Bool.false_eq_true, if_false]
      apply containsAkia_append_span _ mid _ hpa
      · intro hct
        apply hs
        exact containsAkia_infix ⟨[], s.drop i, by simp⟩ hct
      · apply ih
        intro hcr
        apply hs
        obtain ⟨t, ht⟩ := matchRem_suffix re (s.drop i) rem hspec.1
        refine containsAkia_infix ⟨s.take i ++ t, [], ?_⟩ hcr
        rw [List.append_nil, List.append_assoc, ht, List.take_append_drop]

/-! AKIA pattern characterization -/

def reLitL (cs : List Char) : Re :=
  reSeqList (cs.map (fun c => Re.ch (fun d => d = c)))

theorem matchRem_reLitL : ∀ (cs s : List Char),
    matchRem (reLitL cs) s = if s.take cs.length = cs then [s.drop cs.length] else [] := by
  intro cs
  induction cs with
  | nil => intro s; simp [reLitL, reSeqList, matchRem]
  | cons c cs ih =>
    intro s
    cases s with
    | nil =>
      simp only [reLitL, List.map_cons, reSeqList, List.foldr_cons, matchRem]
      simp
    | cons d ds =>
      simp only [reLitL, List.map_cons, reSeqList, List.foldr_cons, matchRem]
      by_cases hdc : d = c
      · subst hdc
        rw [if_pos (by simp)]
        rw [List.flatMap_cons, List.flatMap_nil, List.append_nil]
        have ihds := ih ds
        simp only [reLitL, reSeqList] at ihds
        rw [ihds]
        simp [List.length_cons, List.take_succ_cons, List.drop_succ_cons]
      · rw [if_neg (by simpa using hdc), List.flatMap_nil]
        rw [if_neg (by simp [List.length_cons, List.take_succ_cons, hdc])]

theorem matchRem_seq (a b : Re) (s : List Char) :
    matchRem (Re.seq a b) s = (matchRem a s).flatMap (matchRem b) := rfl

theorem matchRem_repCh (p : Char → Bool) (n : Nat) (s : List Char) :
    matchRem (Re.repCh p n) s
      = if n ≤ s.length && (s.take n).all p then [s.drop n] else [] := rfl

theorem matchRem_awsAccess_ne_nil (s : List Char) :
    matchRem pat_aws_access s ≠ [] ↔ akiaOkB (s.take 20) = true := by
  have hpat : pat_aws_access
      = Re.seq (reLitL ['A', 'K', 'I', 'A']) (Re.repCh isUpperDigitC 16) := rfl
  have hlen4 : (['A', 'K', 'I', 'A'] : List Char).length = 4 := rfl
  rw [hpat, matchRem_seq, matchRem_reLitL, hlen4]
  by_cases h4 : s.take 4 = ['A', 'K', 'I', 'A']
  · rw [if_pos h4, List.flatMap_cons, List.flatMap_nil, List.append_nil, matchRem_repCh]
    have hs4 : 4 ≤ s.length := by
      have := congrArg List.length h4
      rw [List.length_take] at this
      simp at this
      omega
    constructor
    · intro h
      split at h
      · rename_i hcond
        simp only [Bool.and_eq_true, decide_eq_true_eq] at hcond
        unfold akiaOkB
        simp only [Bool.and_eq_true, beq_iff_eq]
        refine ⟨⟨?_, ?_⟩, ?_⟩
        · rw [List.length_take]
          rw [List.length_drop] at hcond
          omega
        · rw [List.take_take]
          simpa using h4
        · rw [List.drop_take]
          exact hcond.2
      · simp at h
    · intro h
      unfold akiaOkB at h
      simp only [Bool.and_eq_true, beq_iff_eq] at h
      rw [List.length_take] at h
      have h20 : 20 ≤ s.length := by
        have := h.1.1
        omega
      rw [if_pos ?_]
      · simp
      · simp only [Bool.and_eq_true, decide_eq_true_eq]
        constructor
        · rw [List.length_drop]
          omega
        · rw [List.drop_take] at h
          exact h.2
  · rw [if_neg h4, List.flatMap_nil]
    constructor
    · intro h
      exact absurd rfl h
    · intro h
      exfalso
      apply h4
      unfold akiaOkB at h
      simp only [Bool.and_eq_true, beq_iff_eq] at h
      have := h.1.2
      rw [List.take_take] at this
      simpa using this

/-- The AWS-access-key substitution pass leaves no AKIA window at all in its
output, whatever the input: every surviving fragment was scanned past (no
match starts there), and placeholders are bracketed. -/
theorem subAll_awsAccess_noAkia (mid : List Char)
    (hpa : ¬ ContainsAkia ('[' :: (mid ++ [']']))) :
    ∀ fuel s, s.length < fuel →
      ¬ ContainsAkia (subAll pat_aws_access ('[' :: (mid ++ [']'])) fuel s).1 := by
  intro fuel
  induction fuel with
  | zero => intro s h; omega
  | succ n ih =>
    intro s hlen
    cases hscan : scan pat_aws_access s with
    | none =>
      simp only [subAll, hscan]
      rintro ⟨i, hi⟩
      have hnone := scan_none_matchRem pat_aws_access s hscan i
      unfold AkiaAt win at hi
      exact (matchRem_awsAccess_ne_nil (s.drop i)).mpr hi hnone
    | some p =>
      obtain ⟨i, rem⟩ := p
      have hspec := scan_some_spec pat_aws_access s i rem hscan
      have hcons : consumes pat_aws_access = true := rfl
      have hlt : rem.length < (s.drop i).length :=
        matchRem_length_lt _ hcons _ _ hspec.1
      have hm : ((s.drop i).take ((s.drop i).length - rem.length)).isEmpty = false := by
        apply isEmpty_false_of_length_pos
        rw [List.length_take]
        omega
      simp only [subAll, hscan, hm, Bool.false_eq_true, if_false]
      apply containsAkia_append_span _ mid _ hpa
      · rintro ⟨j, hj⟩
        have hjle := akiaAt_le hj
        rw [List.length_take] at hjle
        have hji : j + 20 ≤ i := by omega
        have hwin : win (s.take i) j = win s j := by
          unfold win
          rw [List.drop_take, List.take_take]
          rw [(by omega : min 20 (i - j) = 20)]
        unfold AkiaAt at hj
        rw [hwin] at hj
        unfold win at hj
        exact (matchRem_awsAccess_ne_nil (s.drop j)).mpr hj (hspec.2 j (by omega))
      · apply ih
        rw [List.length_drop] at hlt
        omega

/-! redact_secrets level lemmas -/

theorem mk_toList_eq (t : String) : String.mk t.toList = t := by
  cases t
  rfl

theorem not_containsAkia_of_B {l : List Char} (h : containsAkiaB l = false) :
    ¬ ContainsAkia l := by
  intro hc
  rw [containsAkia_iff, h] at hc
  exact Bool.false_ne_true hc

theorem applyPattern_count_le (acc : String × Nat) (pr : Re × String) :
    acc.2 ≤ (applyPattern acc pr).2 := by
  unfold applyPattern
  exact Nat.le_add_right _ _

theorem foldl_applyPattern_count_le (prs : List (Re × String)) :
    ∀ acc : String × Nat, acc.2 ≤ (prs.foldl applyPattern acc).2 := by
  induction prs with
  | nil => intro acc; exact le_refl _
  | cons pr t ih =>
    intro acc
    rw [List.foldl_cons]
    exact le_trans (applyPattern_count_le acc pr) (ih _)

theorem applyPattern_text_eq (acc : String × Nat) (pr : Re × String)
    (h : (applyPattern acc pr).2 = acc.2) : (applyPattern acc pr).1 = acc.1 := by
  unfold applyPattern at h ⊢
  simp only at h ⊢
  have hr : (subAll pr.1 (placeholder pr.2).toList
      (acc.1.toList.length + 1) acc.1.toList).2 = 0 := by omega
  rw [subAll_count_zero _ _ _ _ hr]
  exact mk_toList_eq acc.1

theorem foldl_applyPattern_text_eq (prs : List (Re × String)) :
    ∀ acc, (prs.foldl applyPattern acc).2 = acc.2 → (prs.foldl applyPattern acc).1 = acc.1 := by
  induction prs with
  | nil => intro acc _; rfl
  | cons pr t ih =>
    intro acc h
    rw [List.foldl_cons] at h ⊢
    have h1 : (applyPattern acc pr).2 = acc.2 := by
      have ha := applyPattern_count_le acc pr
      have hb := foldl_applyPattern_count_le t (applyPattern acc pr)
      omega
    have htext := applyPattern_text_eq acc pr h1
    have hacc : applyPattern acc pr = acc := by
      ext1
      · exact htext
      · exact h1
    rw [hacc] at h ⊢
    exact ih acc h

theorem placeholder_toList (nm : String) :
    (placeholder nm).toList = '[' :: (("REDACTED_" ++ nm).toList ++ [']']) := by
  unfold placeholder
  show ("[REDACTED_" ++ nm ++ "]").data = _
  rw [String.data_append, String.data_append]
  show ('[' :: "REDACTED_".data ++ nm.data) ++ [']'] = _
  rw [List.cons_append, List.cons_append]
  rw [List.append_assoc]
  rfl

theorem applyPattern_preserves_noAkia (acc : String × Nat) (re : Re) (nm : String)
    (hc : consumes re = true)
    (hph : containsAkiaB (placeholder nm).toList = false)
    (h : ¬ ContainsAkia acc.1.toList) :
    ¬ ContainsAkia (applyPattern acc (re, nm)).1.toList := by
  unfold applyPattern
  simp only
  rw [show ∀ l : List Char, (String.mk l).toList = l from fun l => rfl]
  have hph2 := not_containsAkia_of_B hph
  rw [placeholder_toList] at hph2 ⊢
  exact subAll_preserves_noAkia re hc _ hph2 _ _ h

theorem applyPattern_aws_noAkia (acc : String × Nat) :
    ¬ ContainsAkia (applyPattern acc (pat_aws_access, "AWS_ACCESS_KEY")).1.toList := by
  unfold applyPattern
  simp only
  rw [show ∀ l : List Char, (String.mk l).toList = l from fun l => rfl]
  have hph2 : ¬ ContainsAkia (placeholder "AWS_ACCESS_KEY").toList :=
    not_containsAkia_of_B (by decide)
  rw [placeholder_toList] at hph2 ⊢
  exact subAll_awsAccess_noAkia _ hph2 _ _ (by omega)

theorem foldl_applyPattern_preserves (prs : List (Re × String))
    (hall : ∀ pr ∈ prs,
      consumes pr.1 = true ∧ containsAkiaB (placeholder pr.2).toList = false) :
    ∀ acc, ¬ ContainsAkia acc.1.toList →
      ¬ ContainsAkia ((prs.foldl applyPattern acc).1).toList := by
  induction prs with
  | nil => intro acc h; exact h
  | cons pr t ih =>
    intro acc h
    rw [List.foldl_cons]
    have hpr := hall pr (List.mem_cons_self pr t)
    apply ih (fun q hq => hall q (List.mem_cons_of_mem pr hq))
    obtain ⟨re, nm⟩ := pr
    exact applyPattern_preserves_noAkia acc re nm hpr.1 hpr.2 h

def redactPre : List (Re × String) :=
  [(pat_api_key, "API_KEY"), (pat_password, "PASSWORD"), (pat_token, "TOKEN")]

def redactPost : List (Re × String) :=
  [(pat_aws_secret, "AWS_SECRET"), (pat_azure, "AZURE_CREDENTIAL"),
   (pat_connection, "CONNECTION_STRING"), (pat_private_key, "PRIVATE_KEY"),
   (pat_ghp, "GITHUB_PAT"), (pat_github_pat, "GITHUB_PAT")]

theorem redact_secrets_stages (text : String) :
    redact_secrets text
      = redactPost.foldl applyPattern
          (applyPattern (redactPre.foldl applyPattern (text, 0))
            (pat_aws_access, "AWS_ACCESS_KEY")) := by
  rw [redact_secrets, show SECRET_PATTERNS
      = redactPre ++ ((pat_aws_access, "AWS_ACCESS_KEY") :: redactPost) from rfl,
    List.foldl_append, List.foldl_cons]

theorem applyPattern_snd (acc : String × Nat) (re : Re) (nm : String) :
    (applyPattern acc (re, nm)).2
      = acc.2 + (subAll re (placeholder nm).toList
          (acc.1.toList.length + 1) acc.1.toList).2 := rfl

/-- C6: for every text containing exactly one embedded value matching the AWS
access key pattern (AKIA followed by 16 characters in `[0-9A-Z]`, at position
`i`), `redact_secrets` returns a redaction count of at least 1 and a redacted
text that no longer contains the literal original 20-character key substring. -/
theorem redact_secrets_aws_access_key (text : String) (i : Nat)
    (hx : AkiaAt text.toList i)
    (huniq : ∀ j, AkiaAt text.toList j → j = i) :
    1 ≤ (redact_secrets text).2 ∧
    ¬ ((text.toList.drop i).take 20 <:+: (redact_secrets text).1.toList) := by
  have hstage := redact_secrets_stages text
  constructor
  · by_contra hlt
    have h0 : (redact_secrets text).2 = 0 := by omega
    rw [hstage] at h0
    have hb4le := foldl_applyPattern_count_le redactPost
      (applyPattern (redactPre.foldl applyPattern (text, 0)) (pat_aws_access, "AWS_ACCESS_KEY"))
    have hb3le := applyPattern_count_le (redactPre.foldl applyPattern (text, 0))
      (pat_aws_access, "AWS_ACCESS_KEY")
    have hb3z : (redactPre.foldl applyPattern (text, 0)).2 = 0 := by omega
    have hb3t : (redactPre.foldl applyPattern (text, 0)).1 = text :=
      foldl_applyPattern_text_eq redactPre (text, 0) hb3z
    have hb4z : (applyPattern (redactPre.foldl applyPattern (text, 0))
        (pat_aws_access, "AWS_ACCESS_KEY")).2 = 0 := by omega
    rw [applyPattern_snd, hb3t, hb3z] at hb4z
    have hscan : scan pat_aws_access text.toList ≠ none := by
      intro hn
      have hall0 := scan_none_matchRem _ _ hn i
      unfold AkiaAt win at hx
      exact (matchRem_awsAccess_ne_nil _).mpr hx hall0
    have hpos := subAll_count_pos pat_aws_access (placeholder "AWS_ACCESS_KEY").toList
      text.toList.length text.toList hscan
    omega
  · intro hinf
    have hKakia : ContainsAkia ((text.toList.drop i).take 20) := by
      refine ⟨0, ?_⟩
      unfold AkiaAt win
      rw [List.drop_zero, List.take_take]
      simpa [Nat.min_self] using hx
    have hfinal : ContainsAkia (redact_secrets text).1.toList :=
      containsAkia_infix hinf hKakia
    rw [hstage] at hfinal
    have h4 := applyPattern_aws_noAkia (redactPre.foldl applyPattern (text, 0))
    have h10 := foldl_applyPattern_preserves redactPost (by decide) _ h4
    exact h10 hfinal

/-- Witness for C6: the text `key AKIA0123456789ABCDEF end` contains exactly
one AKIA match (at index 4); the count is positive and the key is gone. -/
theorem redact_secrets_aws_access_key_witness :
    1 ≤ (redact_secrets "key AKIA0123456789ABCDEF end").2 ∧
    ¬ ((("key AKIA0123456789ABCDEF end").toList.drop 4).take 20 <:+:
        (redact_secrets "key AKIA0123456789ABCDEF end").1.toList) := by
  apply redact_secrets_aws_access_key "key AKIA0123456789ABCDEF end" 4 (by decide)
  intro j hj
  have hb := akiaAt_le hj
  have hlen : ("key AKIA0123456789ABCDEF end").toList.length = 28 := by decide
  rw [hlen] at hb
  have h9 : j < 9 := by omega
  interval_cases j <;> first
    | rfl
    | exact absurd hj (by decide)
